import Mathlib

set_option autoImplicit false
set_option linter.unusedVariables false

/-
Shallow embedding of the gopherfs/fs repository:
 * the in-memory simple filesystem (src/io/mem/simple/simple.go),
 * the cache composition engine (src/io/cache/cache.go),
 * the disk cache eviction index (src/unnamed/part_005, package disk),
 * the disk cache lifecycle (src/io/cache/disk/disk.go).
Go byte slices are modelled as List Nat, Go errors as the Err type below,
in-place mutation as explicit state passing, and the fire-and-forget
back-fill goroutines of cache.FS.ReadFile as an explicit list of pending
fill actions that can later be applied ("settled").
-/

/-- Errors produced by the embedded code. `msg` stands for errors built with
errors.New or fmt.Errorf, `pathErr` for a *fs.PathError wrapping op, path and
an inner error, and `panicked` marks places where the Go source panics at
runtime (a panic is not an error value in Go; the constructor only records
that the operation does not return normally). -/
inductive Err where
  | notExist
  | exist
  | invalid
  | msg (s : String)
  | pathErr (op : String) (path : String) (e : Err)
  | panicked (s : String)
deriving DecidableEq, Repr

/-- A node of the memory filesystem tree: the Go struct `file` of simple.go
with its fields name (path segment), content, isDir and objects (children,
kept sorted by name). The per-handle read cursor `offset` and the `time`
stamp are omitted: no operation modelled here depends on them. -/
inductive FNode where
  | mk (name : String) (content : List Nat) (isDir : Bool) (objects : List FNode)
deriving Repr

def FNode.name : FNode → String
  | .mk n _ _ _ => n

def FNode.content : FNode → List Nat
  | .mk _ c _ _ => c

def FNode.isDir : FNode → Bool
  | .mk _ _ d _ => d

def FNode.objects : FNode → List FNode
  | .mk _ _ _ o => o

@[simp] lemma FNode.name_mk (n : String) (c : List Nat) (d : Bool) (o : List FNode) :
    (FNode.mk n c d o).name = n := rfl

@[simp] lemma FNode.content_mk (n : String) (c : List Nat) (d : Bool) (o : List FNode) :
    (FNode.mk n c d o).content = c := rfl

@[simp] lemma FNode.isDir_mk (n : String) (c : List Nat) (d : Bool) (o : List FNode) :
    (FNode.mk n c d o).isDir = d := rfl

@[simp] lemma FNode.objects_mk (n : String) (c : List Nat) (d : Bool) (o : List FNode) :
    (FNode.mk n c d o).objects = o := rfl

/-- file.Search of simple.go. The source binary-searches the sorted objects
slice with sort.Search and then checks the hit for name equality; on the
sorted child lists the tree maintains, that computes exactly "the first
child with this name", which is what List.find? computes here. The check
order (not-a-directory, empty list, lookup) mirrors the source. -/
def FNode.search (f : FNode) (name : String) : Except Err FNode :=
  if !f.isDir then .error (.msg "not a directory")
  else if f.objects.isEmpty then .error .notExist
  else
    match f.objects.find? (fun o => o.name == name) with
    | some o => .ok o
    | none => .error .notExist

/-- Go's byte-wise `<` on strings, written out over the character lists
(identical to byte order on the ASCII names this filesystem handles). -/
def goLessChars : List Char → List Char → Bool
  | [], [] => false
  | [], _ :: _ => true
  | _ :: _, [] => false
  | a :: as, b :: bs => if a < b then true else if b < a then false else goLessChars as bs

/-- String comparison used by the sort.Slice comparator in simple.go. -/
def goLess (a b : String) : Bool :=
  goLessChars a.data b.data

/-- Sorted insertion into a child list. The Go helpers file.addFile and
file.createDir append the new node and re-sort by name with sort.Slice;
on an already-sorted list of distinct names (the only lists they are ever
called on) that equals ordered insertion. -/
def insertChild (objs : List FNode) (nf : FNode) : List FNode :=
  match objs with
  | [] => [nf]
  | o :: rest => if goLess nf.name o.name then nf :: o :: rest else o :: insertChild rest nf

/-- Replacement of the child named `name`. The Go code mutates the found
child in place through its pointer; names are unique within a directory, so
mapping over the list is equivalent. -/
def replaceChild (objs : List FNode) (name : String) (sub : FNode) : List FNode :=
  objs.map (fun o => if o.name == name then sub else o)

/-- The directory walk of FS.WriteFile (simple.go lines 265-292), written as
recursion over the path segments.  For a non-final segment: a failed Search
creates the directory (file.createDir panics when the receiver is not a
directory - Search on a non-directory fails first and routes into that
branch) and continues inside it; a Search hit must be a directory.  For the
final segment: a Search hit is fs.ErrExist, otherwise file.addFile inserts
the new file node (addFile panics on a non-directory receiver).  On every
error path the Go code has not yet mutated the tree: directory creation is
only reachable on a path all of whose remaining steps succeed (a freshly
created directory is empty, so every later step lands in the creation
branch and the final add succeeds), so returning the untouched tree on
error is faithful to the in-place source. -/
def writeWalk (dir : FNode) (segs : List String) (content : List Nat) : Except Err FNode :=
  match segs with
  | [] => .error (.panicked "empty segment list")
  | [n] =>
    match dir.search n with
    | .ok _ => .error .exist
    | .error _ =>
      if !dir.isDir then .error (.panicked "cannot add a file to a non-directory")
      else .ok (.mk dir.name dir.content dir.isDir
        (insertChild dir.objects (.mk n content false [])))
  | p :: q :: rest =>
    match dir.search p with
    | .error _ =>
      if !dir.isDir then .error (.panicked "createDir called on a non-directory")
      else
        match writeWalk (.mk p [] true []) (q :: rest) content with
        | .error e => .error e
        | .ok sub => .ok (.mk dir.name dir.content dir.isDir (insertChild dir.objects sub))
    | .ok f =>
      if !f.isDir then .error (.msg "name contains an element that is not a directory")
      else
        match writeWalk f (q :: rest) content with
        | .error e => .error e
        | .ok sub => .ok (.mk dir.name dir.content dir.isDir (replaceChild dir.objects p sub))

/-- strings.Split on a one-character separator, written out over the
character list (Go's Split with a one-byte separator: an empty string gives
[""], separators at the ends give empty fields). -/
def goSplitAux (sep : Char) : List Char → List Char → List (List Char)
  | [], acc => [acc.reverse]
  | c :: rest, acc =>
    if c == sep then acc.reverse :: goSplitAux sep rest []
    else goSplitAux sep rest (c :: acc)

/-- strings.Split(s, sep) for the one-character separators the source uses. -/
def goSplit (s : String) (sep : Char) : List String :=
  (goSplitAux sep s.data []).map (fun cs => ⟨cs⟩)

/-- strings.TrimPrefix(s, pre) for the one-character prefixes "." and "/"
the source uses: drop the leading character when it matches. -/
def trimPfx (s : String) (pre : Char) : String :=
  match s.data with
  | [] => s
  | c :: rest => if c == pre then ⟨rest⟩ else s

/-- strings.HasSuffix(s, suf) for the one-character suffix "/" the source
uses: the last character matches. -/
def goHasSuffix (s : String) (suf : Char) : Bool :=
  match s.data.getLast? with
  | some c => c == suf
  | none => false

/-- The name normalisation both FS.Open and FS.WriteFile perform:
strings.TrimPrefix(name, ".") followed by strings.TrimPrefix(name, "/"). -/
def normName (name : String) : String :=
  trimPfx (trimPfx name '.') '/'

/-- The path-walking loop of FS.Open: descend with file.Search segment by
segment, surfacing the first failure. -/
def walkPath (dir : FNode) : List String → Except Err FNode
  | [] => .ok dir
  | p :: rest =>
    match dir.search p with
    | .error e => .error e
    | .ok f => walkPath f rest

/-- The memory filesystem: Go struct FS of simple.go. The writeMu mutex is a
concurrency artifact with no sequential content and is omitted; `cache` is
the Pearson slot table ([]*file, nil slots becoming none). -/
structure SimpleFS where
  root : FNode
  ro : Bool
  pearson : Bool
  cache : List (Option FNode)
  items : Nat

/-- The one option the source defines, WithPearson. -/
inductive SimpleOption where
  | withPearson
deriving DecidableEq, Repr

/-- What a SimpleOption does when applied (the Go option is a closure that
sets s.pearson). -/
def SimpleOption.apply : SimpleOption → SimpleFS → SimpleFS
  | .withPearson, s => { s with pearson := true }

/-- New of simple.go.  Faithful to the source: the options parameter is
accepted but never applied - the body only constructs the root node, so the
returned filesystem always has pearson = false. -/
def SimpleFS.new (options : List SimpleOption) : SimpleFS :=
  { root := .mk "." [] true [], ro := false, pearson := false, cache := [], items := 0 }

/-- FS.Open of simple.go, parametrized by the Pearson hash function: the
file pearson.go is not part of the sources at hand, so every statement
about the hashed branch is quantified over an arbitrary hash.  Open returns
getCopy() of the found node; the copy shares name, content and children, so
it is represented by the node itself.  In the hashed branch the source
checks i >= len(s.cache) first and otherwise calls s.cache[i].getCopy();
when that slot holds a nil pointer the Go program panics, recorded here as
Err.panicked. -/
def SimpleFS.openF (hash : String → Nat) (s : SimpleFS) (name : String) : Except Err FNode :=
  if name = "/" ∨ name = "" ∨ name = "." then .ok s.root
  else
    let nm := normName name
    if s.pearson && s.ro then
      let i := hash nm % (s.cache.length + 1)
      if h : i < s.cache.length then
        match s.cache.get ⟨i, h⟩ with
        | none => .error (.panicked "nil pointer dereference")
        | some f => .ok f
      else .error .notExist
    else
      walkPath s.root (goSplit nm '/')

/-- FS.ReadFile of simple.go: Open, then refuse directories, else return the
content. -/
def SimpleFS.readFile (hash : String → Nat) (s : SimpleFS) (name : String) :
    Except Err (List Nat) :=
  match SimpleFS.openF hash s name with
  | .error e => .error e
  | .ok f => if f.isDir then .error (.msg "cannot read a directory") else .ok f.content

/-- FS.WriteFile of simple.go (the perm argument is ignored by the source;
an empty name is a Go panic).  The Go method mutates in place; here the
updated filesystem is returned next to the result, and on every failure the
returned state is the input state (see writeWalk for why that is faithful). -/
def SimpleFS.writeFile (s : SimpleFS) (name : String) (content : List Nat) (perm : Nat) :
    Except Err Unit × SimpleFS :=
  if s.ro then (.error (.msg "Simple is locked from writing"), s)
  else if name = "" then (.error (.panicked "cannot write a file at root"), s)
  else if goHasSuffix name '/' then (.error (.msg "cannot write a file directory"), s)
  else
    match writeWalk s.root (goSplit (normName name) '/') content with
    | .error e => (.error e, s)
    | .ok newRoot => (.ok (), { s with root := newRoot, items := s.items + 1 })

/-- FS.Mkdir of simple.go: a literal no-op that returns nil. -/
def SimpleFS.mkdir (s : SimpleFS) (name : String) (perm : Nat) : Except Err Unit × SimpleFS :=
  (.ok (), s)

/-- FS.MkdirAll of simple.go: a literal no-op that returns nil. -/
def SimpleFS.mkdirAll (s : SimpleFS) (path : String) (perm : Nat) : Except Err Unit × SimpleFS :=
  (.ok (), s)

/-- file.remove of simple.go. The checks mirror the source order: empty
child list, not-a-directory receiver, sorted lookup of `name`, then for
removeAll the target must be a directory, and without removeAll a directory
target must be empty; finally the slice surgery detaches the found element
(List.eraseP removes exactly the first - hence, on the sorted unique lists,
the found - element). All error paths precede the mutation. -/
def nodeRemove (f : FNode) (name : String) (removeAll : Bool) : Except Err FNode :=
  if f.objects.isEmpty then .error .notExist
  else if !f.isDir then .error (.msg "not a directory")
  else
    match f.objects.find? (fun o => o.name == name) with
    | none => .error .notExist
    | some found =>
      if removeAll then
        if !found.isDir then .error (.msg "not a directory")
        else .ok (.mk f.name f.content f.isDir (f.objects.eraseP (fun o => o.name == name)))
      else
        if found.isDir && !found.objects.isEmpty then .error (.msg "directory was not empty")
        else .ok (.mk f.name f.content f.isDir (f.objects.eraseP (fun o => o.name == name)))

/-- The loop of FS.remove (simple.go lines 350-386) as recursion on the path
segments, together with the trailing parent.remove(name, removeAll) call
the source performs after the loop.  The source has no early return after
removing the final element: for a plain file it detaches the node and then
still returns fs.ErrInvalid from the "only the last entry can be a file"
check, and for a directory it sets parent to the just-detached node, leaves
the loop, and calls remove again on that detached node with the full path -
whose error (usually fs.ErrNotExist) it returns while the detachment
stays.  State updates performed before an error are kept, exactly as the
in-place Go mutation keeps them; mutations of the already-detached node are
invisible in the tree and only their error is kept. -/
def removeWalk (nm : String) (removeAll : Bool) (parent : FNode) :
    List String → Except Err Unit × FNode
  | [] => (.error (.panicked "empty segment list"), parent)
  | [p] =>
    match parent.search p with
    | .error e => (.error (.pathErr "Remove" nm e), parent)
    | .ok f =>
      if removeAll && !f.isDir then (.error (.pathErr "Remove" nm .invalid), parent)
      else if !removeAll && f.isDir then (.error (.pathErr "Remove" nm .invalid), parent)
      else
        match nodeRemove parent p removeAll with
        | .error e => (.error (.pathErr "Remove" nm e), parent)
        | .ok parent' =>
          if !f.isDir then (.error (.pathErr "Remove" nm .invalid), parent')
          else
            match nodeRemove f nm removeAll with
            | .error e => (.error (.pathErr "Remove" nm e), parent')
            | .ok _ => (.ok (), parent')
  | p :: q :: rest =>
    match parent.search p with
    | .error e => (.error (.pathErr "Remove" nm e), parent)
    | .ok f =>
      if !f.isDir then (.error (.pathErr "Remove" nm .invalid), parent)
      else
        match removeWalk nm removeAll f (q :: rest) with
        | (res, f') =>
          (res, .mk parent.name parent.content parent.isDir (replaceChild parent.objects p f'))

/-- FS.remove of simple.go: root-path rejection, name normalisation, the
read-only check for frozen pearson filesystems, then the loop. -/
def SimpleFS.remove (s : SimpleFS) (name : String) (removeAll : Bool) :
    Except Err Unit × SimpleFS :=
  if name = "/" ∨ name = "" ∨ name = "." then
    (.error (.msg "cannot Remove() the root directory"), s)
  else
    let nm := normName name
    if s.pearson && s.ro then
      (.error (.pathErr "Remove" nm (.msg "read only filesystem set")), s)
    else
      match removeWalk nm removeAll s.root (goSplit nm '/') with
      | (res, root') => (res, { s with root := root' })

/-- FS.Remove of simple.go. -/
def SimpleFS.removeF (s : SimpleFS) (name : String) : Except Err Unit × SimpleFS :=
  s.remove name false

/-- FS.RemoveAll of simple.go. -/
def SimpleFS.removeAllF (s : SimpleFS) (path : String) : Except Err Unit × SimpleFS :=
  s.remove path true

/-- path.Join as fs.WalkDir uses it from root ".": joining "." with a name
gives the bare name, deeper names get a "/" separator. -/
def joinPath (pre nm : String) : String :=
  if pre = "." then nm else pre ++ "/" ++ nm

mutual
/-- The fs.WalkDir traversal that FS.RO performs, collecting (path, node)
for every non-directory entry in visit order: children in sorted order,
depth first, paths joined from root ".". Directory entries are skipped by
the callback in the source. -/
def walkFiles (pre : String) : FNode → List (String × FNode)
  | .mk n c false objs => [(pre, .mk n c false objs)]
  | .mk _ _ true objs => walkFilesList pre objs

def walkFilesList (pre : String) : List FNode → List (String × FNode)
  | [] => []
  | o :: rest => walkFiles (joinPath pre o.name) o ++ walkFilesList pre rest
end

/-- FS.RO of simple.go.  When pearson is set it builds the slot table: the
slot index of every file is computed as hash(path) mod (len(s.cache)+1),
where s.cache is the OLD table - the source only assigns s.cache = sl after
the walk, so on a first freeze the modulus is 1 and every file lands in
slot 0 of the fresh table sl (of length s.items), while lookups later use
modulus len(new table)+1.  List.set drops out-of-range writes; on a first
freeze the index is always 0, so this matches the Go slice write. -/
def SimpleFS.RO (hash : String → Nat) (s : SimpleFS) : SimpleFS :=
  if s.pearson then
    let sl : List (Option FNode) := List.replicate s.items none
    let table := (walkFiles "." s.root).foldl
      (fun acc pf => acc.set (hash pf.1 % (s.cache.length + 1)) (some pf.2)) sl
    { s with ro := true, cache := table }
  else { s with ro := true }

/-
Cache composition engine, src/io/cache/cache.go.  cache.FS holds a cache
tier and a store tier, both satisfying the CacheFS contract; the tiers in
scope here are memory filesystems and nested cache.FS values, which the
Tier tree below captures.  cache.New would register the store as filler on
a cache implementing SetFiller; neither the memory FS nor cache.FS itself
implements it, so that branch is dead for these tiers.  The test-only
FilledBy diagnostic and the logger are not modelled.  Reads perform no
synchronous state change; the goroutine that ReadFile spawns on a store hit
is modelled as a pending Fill value, applied later by `settle`.
-/

/-- A composable tier: a memory filesystem leaf (tagged with an id used in
access traces) or a cache.FS composing a cache tier over a store tier. -/
inductive Tier where
  | memfs (id : Nat) (fs : SimpleFS)
  | comp (cache : Tier) (store : Tier)

/-- A pending asynchronous back-fill: the address of the cache.FS node whose
goroutine it is (false descends into the cache child, true into the store
child), the file name, and the bytes to write. -/
abbrev Fill : Type := List Bool × String × List Nat

/-- Re-address a fill that lives under the cache child. -/
def underCache : Fill → Fill
  | (a, n, b) => (false :: a, n, b)

/-- Re-address a fill that lives under the store child. -/
def underStore : Fill → Fill
  | (a, n, b) => (true :: a, n, b)

/-- ReadFile of cache.go: try the cache tier; on success return its bytes;
on failure read the store tier, and on a store hit also schedule the
asynchronous cache.WriteFile back-fill (the [] address denotes this comp
node); a store failure is returned as is.  The third component is the trace
of memory-leaf ids touched, in order. -/
def readFileT (hash : String → Nat) : Tier → String →
    Except Err (List Nat) × List Fill × List Nat
  | .memfs i fs, name => (SimpleFS.readFile hash fs name, [], [i])
  | .comp c st, name =>
    match readFileT hash c name with
    | (.ok b, fills, tr) => (.ok b, fills.map underCache, tr)
    | (.error _, fillsC, trC) =>
      match readFileT hash st name with
      | (.ok b, fillsS, trS) =>
        (.ok b, fillsC.map underCache ++ fillsS.map underStore ++ [([], name, b)], trC ++ trS)
      | (.error e, fillsS, trS) =>
        (.error e, fillsC.map underCache ++ fillsS.map underStore, trC ++ trS)

/-- WriteFile of cache.go: delegate exclusively to the store tier. -/
def writeFileT : Tier → String → List Nat → Nat → Except Err Unit × Tier
  | .memfs i fs, name, content, perm =>
    match fs.writeFile name content perm with
    | (r, fs') => (r, .memfs i fs')
  | .comp c st, name, content, perm =>
    match writeFileT st name content perm with
    | (r, st') => (r, .comp c st')

/-- Open of cache.go: try cache.Open, return its file on success, otherwise
return store.Open's result verbatim; no fill is ever scheduled.  The open
of a memory leaf is FS.Open of simple.go, which reads but never writes its
receiver. -/
def openT (hash : String → Nat) : Tier → String → Except Err FNode × Tier × List Fill
  | .memfs i fs, name => (SimpleFS.openF hash fs name, .memfs i fs, [])
  | .comp c st, name =>
    match openT hash c name with
    | (.ok f, c', fills) => (.ok f, .comp c' st, fills.map underCache)
    | (.error _, c', fillsC) =>
      match openT hash st name with
      | (r, st', fillsS) => (r, .comp c' st', fillsC.map underCache ++ fillsS.map underStore)

/-- Run one pending back-fill goroutine: navigate to the addressed comp node
and call cache.WriteFile(name, b, 0644) on its cache child; a failure is
only logged, so the result is dropped. -/
def applyFill (t : Tier) (fl : Fill) : Tier :=
  match fl, t with
  | ([], n, b), .comp c st => .comp (writeFileT c n b 420).2 st
  | ([], _, _), .memfs i fs => .memfs i fs
  | (false :: rest, n, b), .comp c st => .comp (applyFill c (rest, n, b)) st
  | (true :: rest, n, b), .comp c st => .comp c (applyFill st (rest, n, b))
  | (_ :: _, _, _), .memfs i fs => .memfs i fs

/-- Let all pending back-fill goroutines run to completion. -/
def settle (t : Tier) (fills : List Fill) : Tier :=
  fills.foldl applyFill t

/-- The cache child of a comp node. -/
def cacheOf : Tier → Tier
  | .comp c _ => c
  | t => t

/-- The store child of a comp node. -/
def storeOf : Tier → Tier
  | .comp _ st => st
  | t => t

/-- The bytes-level result of a read on a tier. -/
def tierRead (hash : String → Nat) (t : Tier) (name : String) : Except Err (List Nat) :=
  (readFileT hash t name).1

/-
Eviction index, src/unnamed/part_005 (package disk).  The index wraps a
GoLLRB tree of expireKey values and a byName map.  Times are modelled as
Int.  Note the Less method of expireKey is
  func (e expireKey) Less(than llrb.Item) bool { return than.Before(e.Time) }
i.e. e is "less" than `than` exactly when e's time is LATER - the tree is
ordered by descending time.  The tree is modelled as a list sorted in that
tree order; InsertNoReplace places an order-equal newcomer after the
existing equals (GoLLRB sends equals to the right subtree), and Delete
removes the first order-equal element (ordering compares only times, never
names, which is what lets a delete hit the wrong name's entry when two
entries carry the same time - traced against GoLLRB's delete on a
two-element tree below).  The sync.Mutex has no sequential content.
-/

/-- The expireKey struct: an expiry time and a name. -/
structure ExpireKey where
  time : Int
  name : String
deriving DecidableEq, Repr

/-- expireKey.Less from the source: e.Less(than) holds when than.Time is
before e.Time, i.e. the ordering is by DESCENDING time. -/
def keyLess (e than : ExpireKey) : Bool :=
  than.time < e.time

/-- Order-equality of the GoLLRB ordering: neither is Less than the other,
i.e. the times are equal (names are never compared). -/
def keyEq (a b : ExpireKey) : Bool :=
  !keyLess a b && !keyLess b a

/-- LLRB.InsertNoReplace on the list model: keep tree order, placing an
order-equal newcomer after the existing equal entries. -/
def llrbInsert (l : List ExpireKey) (k : ExpireKey) : List ExpireKey :=
  match l with
  | [] => [k]
  | x :: xs => if keyLess k x then k :: x :: xs else x :: llrbInsert xs k

/-- LLRB.Delete on the list model: remove the first order-equal element, if
any (GoLLRB deletes the first order-equal item on its search path). -/
def llrbDelete (l : List ExpireKey) (k : ExpireKey) : List ExpireKey :=
  l.eraseP (fun x => keyEq x k)

/-- The index struct of part_005: TTL (olderThan), the ordered structure and
the byName companion map (an association list with unique names, lookups by
List.lookup). The location and logger fields only feed the removal callback
and the log line; the callback's file deletion is modelled in DiskFS. -/
structure IndexState where
  olderThan : Int
  expires : List ExpireKey
  byName : List (String × ExpireKey)
deriving DecidableEq, Repr

/-- newIndex of part_005. -/
def newIndex (olderThan : Int) : IndexState :=
  { olderThan := olderThan, expires := [], byName := [] }

/-- Go map assignment m[name] = k on the association-list model. -/
def assocSet (m : List (String × ExpireKey)) (name : String) (k : ExpireKey) :
    List (String × ExpireKey) :=
  if (m.lookup name).isSome then m.map (fun p => if p.1 == name then (name, k) else p)
  else m ++ [(name, k)]

/-- index.addOrUpdate of part_005: when the name is known, Delete its old
ordered entry and refresh the time to now + olderThan, else build a fresh
key; in both branches store the key in byName and InsertNoReplace it. -/
def addOrUpdate (st : IndexState) (now : Int) (name : String) : IndexState :=
  match st.byName.lookup name with
  | some k =>
    let ex := llrbDelete st.expires k
    let k' : ExpireKey := { time := now + st.olderThan, name := name }
    { st with expires := llrbInsert ex k', byName := assocSet st.byName name k' }
  | none =>
    let k' : ExpireKey := { time := now + st.olderThan, name := name }
    { st with expires := llrbInsert st.expires k', byName := assocSet st.byName name k' }

/-- index.deleteOld with its expireItem callback: AscendLessThan iterates
every tree element Less than the pivot expireKey{Time: now - olderThan} -
under the descending order of keyLess these are exactly the elements with
time AFTER now - olderThan - and expireItem deletes each from the tree and
removes its backing file; byName is never touched.  Returns the new index
state plus the names whose backing files expireItem removed, in iteration
order.  (expireItem deletes from the tree being iterated; on the states
this development evaluates the iteration visits each matching element once,
so the filter is exact.) -/
def deleteOld (st : IndexState) (now : Int) : IndexState × List String :=
  let pivot : ExpireKey := { time := now - st.olderThan, name := "" }
  let removed := st.expires.filter (fun x => keyLess x pivot)
  ({ st with expires := st.expires.filter (fun x => !keyLess x pivot) },
   removed.map (fun x => x.name))

/-
Disk-tier cache, src/io/cache/disk/disk.go.  The osfs backend is an
external collaborator; it is modelled as a name-to-bytes association (the
storage contract of the spec), keyed by the transformed on-disk name.
-/

/-- strings.Replace(name, "/", "_slash_", -1) written over the character
list: every slash becomes the seven characters of "_slash_". -/
def replaceSlash : List Char → List Char
  | [] => []
  | c :: rest =>
    if c == '/' then '_' :: 's' :: 'l' :: 'a' :: 's' :: 'h' :: '_' :: replaceSlash rest
    else c :: replaceSlash rest

/-- nameTransform of disk.go. -/
def nameTransform (name : String) : String :=
  ⟨replaceSlash name.data⟩

/-- The disk cache's observable state: the eviction index plus the backing
byte store at `location`. -/
structure DiskFS where
  index : IndexState
  files : List (String × List Nat)
deriving DecidableEq, Repr

/-- disk.FS.WriteFile: write the bytes through the os backend (modelled as a
create-or-replace update that succeeds), then index.addOrUpdate(name). -/
def DiskFS.writeFile (d : DiskFS) (now : Int) (name : String) (content : List Nat) :
    Except Err Unit × DiskFS :=
  let key := nameTransform name
  let files' := (d.files.filter (fun p => p.1 ≠ key)) ++ [(key, content)]
  (.ok (), { index := addOrUpdate d.index now name, files := files' })

/-- disk.FS.Stat: fs.Stat on the backing file, NotFound when it is absent. -/
def DiskFS.stat (d : DiskFS) (name : String) : Except Err Unit :=
  if (d.files.lookup (nameTransform name)).isSome then .ok () else .error .notExist

/-- disk.FS.ReadFile via Open on the backing store. -/
def DiskFS.readFile (d : DiskFS) (name : String) : Except Err (List Nat) :=
  match d.files.lookup (nameTransform name) with
  | some b => .ok b
  | none => .error .notExist

/-- One firing of the expiry sweep: index.deleteOld, whose expireItem
callback os.Removes each removed entry's backing file. -/
def DiskFS.sweep (d : DiskFS) (now : Int) : DiskFS :=
  match deleteOld d.index now with
  | (idx', removed) =>
    { index := idx',
      files := removed.foldl (fun fl nm => fl.filter (fun p => p.1 ≠ nameTransform nm)) d.files }

/-- The options of disk.New that configure timing. -/
inductive DiskOption where
  | withExpireCheck (d : Int)
  | withExpireFiles (d : Int)
deriving DecidableEq, Repr

/-- The lifecycle-relevant fields of disk.FS: configuration, the index, and
closeCh.  closeCh is `chan struct{}`; a Go channel field left out of the
struct literal keeps the zero value nil, modelled as none. -/
structure DiskProc where
  location : String
  expireDuration : Int
  checkTime : Int
  closeCh : Option Unit
  index : IndexState
deriving DecidableEq, Repr

/-- Application of a disk.Option. -/
def DiskOption.apply : DiskOption → DiskProc → DiskProc
  | .withExpireCheck d, f => { f with checkTime := d }
  | .withExpireFiles d, f => { f with expireDuration := d }

/-- New of disk.go (lines 104-145): build the struct literal (logger,
location, expireDuration 30min, openTimeout, checkTime 1min - closeCh is
not among the initialized fields, so it stays nil), apply the options,
create the index with the resulting expireDuration, and start expireLoop.
Durations are in seconds here. -/
def diskNew (location : String) (options : List DiskOption) : DiskProc :=
  let base : DiskProc :=
    { location := location, expireDuration := 30*60, checkTime := 60,
      closeCh := none, index := newIndex (30*60) }
  let sys := options.foldl (fun f o => o.apply f) base
  { sys with index := newIndex sys.expireDuration }

/-- disk.FS.Close: close(f.closeCh).  Closing a nil channel panics at
runtime. -/
def diskClose (f : DiskProc) : Except Err Unit :=
  match f.closeCh with
  | none => .error (.panicked "close of nil channel")
  | some _ => .ok ()

/-- Whether the shutdown branch of the select in expireLoop can ever fire:
a receive from closeCh completes after close(closeCh) only when the channel
is non-nil; a receive from a nil channel blocks forever, so with closeCh
nil the loop can only ever take the ticker branch. -/
def expireLoopCanStop (f : DiskProc) : Bool :=
  f.closeCh.isSome

/-
Helper lemmas about the memory filesystem.
-/

/-- A hash stand-in for concrete scenarios whose filesystems are never in
frozen pearson mode, where the hash is dead code. -/
def zeroHash : String → Nat := fun _ => 0

/-- Two fresh memory filesystems composed: cache = MemFS, store = MemFS2. -/
def twoMemSys : Tier :=
  Tier.comp (.memfs 0 (SimpleFS.new [])) (.memfs 1 (SimpleFS.new []))

/-- The three-tier cascade of C2: T1 and T2 empty, T3 holding "a" = "hello"
(the bytes of "hello"). -/
def helloBytes : List Nat := [104, 101, 108, 108, 111]

def threeTierSys : Tier :=
  Tier.comp (.memfs 1 (SimpleFS.new []))
    (Tier.comp (.memfs 2 (SimpleFS.new []))
      (.memfs 3 ((SimpleFS.new []).writeFile "a" helloBytes 0).2))

/-- Touch sequences against the index: fold addOrUpdate over (name, now)
pairs starting from a fresh index. -/
def runAdds (ttl : Int) (ops : List (String × Int)) : IndexState :=
  ops.foldl (fun st op => addOrUpdate st op.2 op.1) (newIndex ttl)

/-- The index invariant: the ordered structure is, as a multiset, the
companion map's values; the companion map's names are unique; all ordered
entries carry pairwise distinct times; and every mapped key carries its own
name. -/
def InvIdx (st : IndexState) : Prop :=
  st.expires.Perm (st.byName.map (fun p => p.2))
  ∧ (st.byName.map (fun p => p.1)).Nodup
  ∧ (st.expires.map (fun k => k.time)).Nodup
  ∧ ∀ p ∈ st.byName, p.2.name = p.1

lemma insertChild_ne_nil (objs : List FNode) (x : FNode) : insertChild objs x ≠ [] := by
  cases objs with
  | nil => simp [insertChild]
  | cons o rest => unfold insertChild; split <;> simp

lemma find?_insertChild (objs : List FNode) (x : FNode) (nm : String)
    (hx : x.name = nm) (h : objs.find? (fun o => o.name == nm) = none) :
    (insertChild objs x).find? (fun o => o.name == nm) = some x := by
  induction objs with
  | nil => simp [insertChild, List.find?, hx]
  | cons o rest ih =>
    rw [List.find?_eq_none] at h
    have ho : (o.name == nm) = false := by
      have := h o (by simp)
      simpa using this
    unfold insertChild
    split
    · rw [List.find?_cons_of_pos]
      simp [hx]
    · rw [List.find?_cons_of_neg _ (by simp [ho])]
      exact ih (by
        rw [List.find?_eq_none]
        intro a ha
        exact h a (by simp [ha]))

lemma find?_replaceChild (objs : List FNode) (nm : String) (f sub : FNode)
    (hsub : sub.name = nm) (h : objs.find? (fun o => o.name == nm) = some f) :
    (replaceChild objs nm sub).find? (fun o => o.name == nm) = some sub := by
  induction objs with
  | nil => simp at h
  | cons o rest ih =>
    by_cases ho : (o.name == nm) = true
    · unfold replaceChild
      simp only [List.map_cons, ho, if_true]
      rw [List.find?_cons_of_pos]
      simp [hsub]
    · have h' : rest.find? (fun o => o.name == nm) = some f := by
        rwa [List.find?_cons_of_neg _ (by simpa using ho)] at h
      unfold replaceChild
      simp only [List.map_cons, ho, if_false]
      rw [List.find?_cons_of_neg _ (by simpa using ho)]
      exact ih h'

lemma replaceChild_ne_nil (objs : List FNode) (nm : String) (sub : FNode)
    (h : objs ≠ []) : replaceChild objs nm sub ≠ [] := by
  cases objs with
  | nil => exact absurd rfl h
  | cons o rest => simp [replaceChild]

lemma search_ok_elim {dir : FNode} {p : String} {x : FNode} (h : dir.search p = .ok x) :
    dir.isDir = true ∧ dir.objects.find? (fun o => o.name == p) = some x ∧ x.name = p := by
  unfold FNode.search at h
  by_cases hd : dir.isDir
  · rw [hd] at h
    simp only [Bool.not_true, Bool.false_eq_true, if_false] at h
    by_cases he : dir.objects.isEmpty
    · rw [if_pos he] at h; exact absurd h (by simp)
    · rw [if_neg he] at h
      cases hf : dir.objects.find? (fun o => o.name == p) with
      | some o =>
        rw [hf] at h
        obtain rfl : o = x := by injection h
        refine ⟨hd, rfl, ?_⟩
        have hbeq := List.find?_some hf
        simpa using hbeq
      | none => rw [hf] at h; exact absurd h (by simp)
  · rw [Bool.not_eq_true] at hd
    rw [hd] at h
    simp at h

lemma search_error_elim {dir : FNode} {p : String} {e : Err}
    (hd : dir.isDir = true) (h : dir.search p = .error e) :
    dir.objects.find? (fun o => o.name == p) = none := by
  unfold FNode.search at h
  rw [hd] at h
  simp only [Bool.not_true, Bool.false_eq_true, if_false] at h
  by_cases he : dir.objects.isEmpty
  · rw [List.isEmpty_iff] at he
    simp [he]
  · rw [if_neg he] at h
    cases hf : dir.objects.find? (fun o => o.name == p) with
    | some o => rw [hf] at h; exact absurd h (by simp)
    | none => rfl

lemma search_of_find? {dir : FNode} {p : String} {x : FNode}
    (hd : dir.isDir = true) (hf : dir.objects.find? (fun o => o.name == p) = some x) :
    dir.search p = .ok x := by
  have hne : dir.objects ≠ [] := by
    intro h0; rw [h0] at hf; simp at hf
  unfold FNode.search
  rw [hd]
  simp only [Bool.not_true, Bool.false_eq_true, if_false]
  rw [if_neg (by simpa [List.isEmpty_iff] using hne)]
  rw [hf]

/-- A successful WriteFile walk leaves a directory with the same name, makes
the tree resolve the same segments to the freshly created file node, and
makes any second walk with the same segments fail with fs.ErrExist. -/
lemma writeWalk_ok_after :
    ∀ (segs : List String) (dir : FNode) (content : List Nat) (dir' : FNode),
      writeWalk dir segs content = .ok dir' →
      dir'.name = dir.name ∧ dir'.isDir = true ∧ dir'.objects ≠ []
      ∧ (∃ fn, walkPath dir' segs = .ok (FNode.mk fn content false []))
      ∧ (∀ c2, writeWalk dir' segs c2 = .error .exist) := by
  intro segs
  induction segs with
  | nil =>
    intro dir content dir' h
    simp [writeWalk] at h
  | cons p tail ih =>
    intro dir content dir' h
    cases tail with
    | nil =>
      unfold writeWalk at h
      split at h
      · exact absurd h (by simp)
      next e hs =>
        split at h
        · exact absurd h (by simp)
        next hcond =>
          have hd : dir.isDir = true := by simpa using hcond
          obtain rfl : FNode.mk dir.name dir.content dir.isDir
              (insertChild dir.objects (.mk p content false [])) = dir' := by
            injection h
          have hfindnone := search_error_elim hd hs
          have hfind := find?_insertChild dir.objects (.mk p content false []) p rfl hfindnone
          have hsearch' : (FNode.mk dir.name dir.content dir.isDir
              (insertChild dir.objects (.mk p content false []))).search p
              = .ok (.mk p content false []) := by
            apply search_of_find? (by simp [hd])
            simpa using hfind
          refine ⟨by simp, by simp [hd], ?_, ?_, ?_⟩
          · simp only [FNode.objects_mk]
            exact insertChild_ne_nil _ _
          · refine ⟨p, ?_⟩
            unfold walkPath
            rw [hsearch']
            rfl
          · intro c2
            unfold writeWalk
            rw [hsearch']
    | cons q rest =>
      unfold writeWalk at h
      split at h
      next e hs =>
        split at h
        · exact absurd h (by simp)
        next hcond =>
          have hd : dir.isDir = true := by simpa using hcond
          split at h
          · exact absurd h (by simp)
          next sub hw =>
            obtain rfl : FNode.mk dir.name dir.content dir.isDir
                (insertChild dir.objects sub) = dir' := by injection h
            obtain ⟨hname, hdir, hne, ⟨fn, hwalk⟩, hexist⟩ := ih _ _ _ hw
            have hsubname : sub.name = p := by simpa using hname
            have hfindnone := search_error_elim hd hs
            have hfind := find?_insertChild dir.objects sub p hsubname hfindnone
            have hsearch' : (FNode.mk dir.name dir.content dir.isDir
                (insertChild dir.objects sub)).search p = .ok sub := by
              apply search_of_find? (by simp [hd])
              simpa using hfind
            refine ⟨by simp, by simp [hd], ?_, ?_, ?_⟩
            · simp only [FNode.objects_mk]
              exact insertChild_ne_nil _ _
            · refine ⟨fn, ?_⟩
              unfold walkPath
              rw [hsearch']
              exact hwalk
            · intro c2
              unfold writeWalk
              rw [hsearch']
              simp only [hdir, Bool.not_true, Bool.false_eq_true, if_false, hexist c2]
      next f hs =>
        obtain ⟨hddir, hfindf, hfname⟩ := search_ok_elim hs
        split at h
        · exact absurd h (by simp)
        next hcond =>
          have hfd : f.isDir = true := by simpa using hcond
          split at h
          · exact absurd h (by simp)
          next sub hw =>
            obtain rfl : FNode.mk dir.name dir.content dir.isDir
                (replaceChild dir.objects p sub) = dir' := by injection h
            obtain ⟨hname, hdir, hne, ⟨fn, hwalk⟩, hexist⟩ := ih _ _ _ hw
            have hsubname : sub.name = p := by rw [hname, hfname]
            have hfind := find?_replaceChild dir.objects p f sub hsubname hfindf
            have hsearch' : (FNode.mk dir.name dir.content dir.isDir
                (replaceChild dir.objects p sub)).search p = .ok sub := by
              apply search_of_find? (by simp [hddir])
              simpa using hfind
            refine ⟨by simp, by simp [hddir], ?_, ?_, ?_⟩
            · simp only [FNode.objects_mk]
              apply replaceChild_ne_nil
              intro h0
              rw [h0] at hfindf
              simp at hfindf
            · refine ⟨fn, ?_⟩
              unfold walkPath
              rw [hsearch']
              exact hwalk
            · intro c2
              unfold writeWalk
              rw [hsearch']
              simp only [hdir, Bool.not_true, Bool.false_eq_true, if_false, hexist c2]

/-- Decomposition of a successful FS.WriteFile call. -/
lemma writeFile_ok_parts {s : SimpleFS} {N : String} {C : List Nat} {perm : Nat} {s' : SimpleFS}
    (h : s.writeFile N C perm = (.ok (), s')) :
    s.ro = false ∧ N ≠ "" ∧ goHasSuffix N '/' = false
    ∧ writeWalk s.root (goSplit (normName N) '/') C = .ok s'.root
    ∧ s'.ro = s.ro ∧ s'.pearson = s.pearson ∧ s'.cache = s.cache ∧ s'.items = s.items + 1 := by
  unfold SimpleFS.writeFile at h
  split at h
  · exact absurd h (by simp)
  next hro =>
    split at h
    · exact absurd h (by simp)
    next hname =>
      split at h
      · exact absurd h (by simp)
      next hslash =>
        split at h
        · exact absurd h (by simp)
        next newRoot hww =>
          obtain ⟨-, rfl⟩ : .ok () = (Except.ok () : Except Err Unit)
              ∧ ({ s with root := newRoot, items := s.items + 1 } : SimpleFS) = s' := by
            constructor
            · rfl
            · injection h with h1 h2
          refine ⟨by simpa using hro, hname, by simpa using hslash, ?_, rfl, rfl, rfl, rfl⟩
          simpa using hww

/-- Reading any name from a freshly constructed memory filesystem fails:
there is not a single file in the tree, and reading a name that resolves to
the root directory fails with "cannot read a directory". -/
lemma readFile_new_error (hash : String → Nat) (N : String) :
    ∃ e, SimpleFS.readFile hash (SimpleFS.new []) N = .error e := by
  unfold SimpleFS.readFile SimpleFS.openF SimpleFS.new
  by_cases hroot : (N = "/" ∨ N = "" ∨ N = ".")
  · rw [if_pos hroot]
    exact ⟨.msg "cannot read a directory", by simp⟩
  · rw [if_neg hroot]
    simp only [Bool.false_and, Bool.false_eq_true, if_false]
    cases hsp : goSplit (normName N) '/' with
    | nil => exact ⟨.msg "cannot read a directory", by simp [walkPath]⟩
    | cons p rest =>
      refine ⟨.notExist, ?_⟩
      simp [walkPath, FNode.search]

/-- The written file can be read back (for any hash function: the pearson
branch needs ro, which a successful write rules out).  The name "." is the
one normalised-to-reachable name Open special-cases to the root before the
walk, hence the hypothesis. -/
lemma readFile_after_writeFile {hash : String → Nat} {s : SimpleFS} {N : String}
    {C : List Nat} {perm : Nat} {s' : SimpleFS}
    (h : s.writeFile N C perm = (.ok (), s')) (hdot : N ≠ ".") :
    SimpleFS.readFile hash s' N = .ok C := by
  obtain ⟨hro, hname, hslash, hww, hro', hp', hc', hi'⟩ := writeFile_ok_parts h
  obtain ⟨-, -, -, ⟨fn, hwalk⟩, -⟩ := writeWalk_ok_after _ _ _ _ hww
  have hslashN : N ≠ "/" := by
    intro hN
    rw [hN] at hslash
    exact absurd hslash (by decide)
  unfold SimpleFS.readFile SimpleFS.openF
  rw [if_neg (by
    intro hroot
    rcases hroot with h1 | h1 | h1
    · exact hslashN h1
    · exact hname h1
    · exact hdot h1)]
  rw [hro', hro]
  simp only [Bool.and_false, Bool.false_eq_true, if_false]
  rw [hwalk]
  simp

/-- Writing the same name a second time fails with fs.ErrExist and returns
the filesystem unchanged. -/
lemma writeFile_second_exist {s : SimpleFS} {N : String} {C : List Nat} {perm : Nat}
    {s' : SimpleFS} (h : s.writeFile N C perm = (.ok (), s'))
    (C2 : List Nat) (perm2 : Nat) :
    s'.writeFile N C2 perm2 = (.error .exist, s') := by
  obtain ⟨hro, hname, hslash, hww, hro', hp', hc', hi'⟩ := writeFile_ok_parts h
  obtain ⟨-, -, -, -, hexist⟩ := writeWalk_ok_after _ _ _ _ hww
  unfold SimpleFS.writeFile
  rw [if_neg (by rw [hro', hro]; simp)]
  rw [if_neg hname]
  rw [if_neg (by rw [hslash]; simp)]
  rw [hexist C2]

/-
Claim theorems.
-/

/-- Claim C1: the composition engine's readFile first tries the cache tier
and returns its bytes unchanged on success; on cache failure it returns the
store tier's result unchanged - the store's bytes on success, the store's
error on failure - and the cache's error never surfaces (the result is a
function of the store's result alone once the cache has failed). -/
theorem c1_readFile_waterfall (hash : String → Nat) (c st : Tier) (name : String) :
    (readFileT hash (Tier.comp c st) name).1 =
      match (readFileT hash c name).1 with
      | .ok b => .ok b
      | .error _ => (readFileT hash st name).1 := by
  have hred : readFileT hash (Tier.comp c st) name
      = match readFileT hash c name with
        | (.ok b, fills, tr) => (.ok b, fills.map underCache, tr)
        | (.error _, fillsC, trC) =>
          match readFileT hash st name with
          | (.ok b, fillsS, trS) =>
            (.ok b, fillsC.map underCache ++ fillsS.map underStore ++ [([], name, b)],
             trC ++ trS)
          | (.error e, fillsS, trS) =>
            (.error e, fillsC.map underCache ++ fillsS.map underStore, trC ++ trS) := rfl
  rcases hc : readFileT hash c name with ⟨rc, fc, trc⟩
  rcases hs : readFileT hash st name with ⟨rs, fs2, trs⟩
  rw [hred, hc, hs]
  cases rc with
  | ok b => rfl
  | error e =>
    cases rs with
    | ok b => rfl
    | error e2 => rfl

/-- The open path of the composition engine never changes any tier state and
never schedules a back-fill. -/
lemma openT_frame (hash : String → Nat) :
    ∀ (t : Tier) (name : String),
      (openT hash t name).2.1 = t ∧ (openT hash t name).2.2 = [] := by
  intro t
  induction t with
  | memfs i fs => intro name; exact ⟨rfl, rfl⟩
  | comp c st ihc ihs =>
    intro name
    have hred : openT hash (Tier.comp c st) name
        = match openT hash c name with
          | (.ok f, c', fills) => (.ok f, Tier.comp c' st, fills.map underCache)
          | (.error _, c', fillsC) =>
            match openT hash st name with
            | (r, st', fillsS) =>
              (r, Tier.comp c' st', fillsC.map underCache ++ fillsS.map underStore) := rfl
    rcases hc : openT hash c name with ⟨rc, c', fc⟩
    have ihc' := ihc name
    rw [hc] at ihc'
    obtain ⟨rfl, rfl⟩ : c' = c ∧ fc = [] := ihc'
    rcases hs : openT hash st name with ⟨rs, st', fs2⟩
    have ihs' := ihs name
    rw [hs] at ihs'
    obtain ⟨rfl, rfl⟩ : st' = st ∧ fs2 = [] := ihs'
    rw [hred, hc, hs]
    cases rc with
    | ok f => exact ⟨rfl, rfl⟩
    | error e => exact ⟨rfl, rfl⟩

/-- Claim C3: the composition engine's open and writeFile never modify the
cache tier's state.  open returns the cache's handle when cache.Open
succeeds and otherwise the store's result verbatim, leaving every tier
unchanged and scheduling no fill; writeFile delegates exclusively to
store.WriteFile, returning the composition with the cache component
untouched. -/
theorem c3_open_write_frame (hash : String → Nat) :
    (∀ (t : Tier) (name : String),
      (openT hash t name).2.1 = t ∧ (openT hash t name).2.2 = [])
    ∧ (∀ (c st : Tier) (name : String),
      (openT hash (Tier.comp c st) name).1 =
        match (openT hash c name).1 with
        | .ok f => .ok f
        | .error _ => (openT hash st name).1)
    ∧ (∀ (c st : Tier) (name : String) (content : List Nat) (perm : Nat),
      writeFileT (Tier.comp c st) name content perm =
        ((writeFileT st name content perm).1,
         Tier.comp c (writeFileT st name content perm).2)) := by
  refine ⟨openT_frame hash, ?_, fun c st name content perm => rfl⟩
  intro c st name
  have hred : openT hash (Tier.comp c st) name
      = match openT hash c name with
        | (.ok f, c', fills) => (.ok f, Tier.comp c' st, fills.map underCache)
        | (.error _, c', fillsC) =>
          match openT hash st name with
          | (r, st', fillsS) =>
            (r, Tier.comp c' st', fillsC.map underCache ++ fillsS.map underStore) := rfl
  rcases hc : openT hash c name with ⟨rc, c', fc⟩
  rcases hs : openT hash st name with ⟨rs, st', fs2⟩
  rw [hred, hc, hs]
  cases rc with
  | ok f => rfl
  | error e => rfl


/-- Claim C10: Mkdir and MkdirAll of the memory filesystem return nil and
leave the state untouched for every name and mode; directories appear only
as a side effect of WriteFile creating intermediate directories (witnessed
here: writing "a/b" into a fresh filesystem creates the directory "a"). -/
theorem c10_mkdir_noop :
    (∀ (s : SimpleFS) (name : String) (perm : Nat), s.mkdir name perm = (.ok (), s))
    ∧ (∀ (s : SimpleFS) (path : String) (perm : Nat), s.mkdirAll path perm = (.ok (), s))
    ∧ SimpleFS.openF (fun _ => 0) ((SimpleFS.new []).writeFile "a/b" [1] 0).2 "a"
        = .ok (FNode.mk "a" [] true [FNode.mk "b" [1] false []]) :=
  ⟨fun _ _ _ => rfl, fun _ _ _ => rfl, rfl⟩

/-- Claim C4: after a successful WriteFile of C1 at a name, writing the same
name again fails with fs.ErrExist and leaves the filesystem - and hence the
stored content, still C1 at that name, and the whole rest of the tree -
unchanged. -/
theorem c4_write_once (s s' : SimpleFS) (N : String) (C1 C2 : List Nat) (p1 p2 : Nat)
    (h : s.writeFile N C1 p1 = (.ok (), s')) :
    s'.writeFile N C2 p2 = (.error .exist, s')
    ∧ ∃ fn, walkPath s'.root (goSplit (normName N) '/') = .ok (FNode.mk fn C1 false []) := by
  refine ⟨writeFile_second_exist h C2 p2, ?_⟩
  obtain ⟨-, -, -, hww, -⟩ := writeFile_ok_parts h
  obtain ⟨-, -, -, hwalk, -⟩ := writeWalk_ok_after _ _ _ _ hww
  exact hwalk

/-- Witness for C4 at the concrete input s = New(), N = "a", C1 = [1],
C2 = [2]. -/
theorem c4_write_once_witness :
    ((SimpleFS.new []).writeFile "a" [1] 0).2.writeFile "a" [2] 0
      = (.error .exist, ((SimpleFS.new []).writeFile "a" [1] 0).2) :=
  (c4_write_once (SimpleFS.new []) ((SimpleFS.new []).writeFile "a" [1] 0).2
    "a" [1] [2] 0 0 rfl).1

/-- Claim C6 is violated by the code: the sweep does not remove exactly the
entries with expiry at or before now.  With TTL 10, an entry touched at
time 0 (expiry 10) is removed - backing bytes included - by a sweep at
time 1, long before its expiry, because deleteOld's pivot is now - TTL
under a reversed ordering; and the same entry survives a sweep at time 25,
after its expiry.  The statement evaluates the code at both sweeps. -/
theorem c6_sweep_wrong_window :
    (let d1 : DiskFS := ((⟨newIndex 10, []⟩ : DiskFS).writeFile 0 "a" [7]).2
     d1.stat "a" = .ok ()
     ∧ d1.index.expires = [⟨10, "a"⟩]
     ∧ (d1.sweep 1).stat "a" = .error .notExist
     ∧ (d1.sweep 1).index.expires = []
     ∧ (d1.sweep 25).stat "a" = .ok ()
     ∧ (d1.sweep 25).index.expires = [⟨10, "a"⟩]) :=
  ⟨rfl, rfl, rfl, rfl, rfl, rfl⟩

/-- Claim C8 is violated by the code: FS.remove has no early return after
detaching the final path element.  Removing a plain file detaches it but
still returns a PathError(ErrInvalid); RemoveAll of an existing directory
detaches it and then reruns remove on the detached node with the full path,
returning PathError(ErrNotExist).  The parts of the claim about non-empty
directories and the root do hold and are evaluated alongside. -/
theorem c8_remove_detaches_but_errors :
    (let fresh := SimpleFS.new []
     let sA := (fresh.writeFile "a" [1] 0).2
     let sDF := (fresh.writeFile "d/f" [1] 0).2
     (sA.removeF "a").1 = .error (.pathErr "Remove" "a" .invalid)
     ∧ SimpleFS.openF (fun _ => 0) (sA.removeF "a").2 "a" = .error .notExist
     ∧ (sDF.removeAllF "d").1 = .error (.pathErr "Remove" "d" .notExist)
     ∧ SimpleFS.openF (fun _ => 0) (sDF.removeAllF "d").2 "d" = .error .notExist
     ∧ (sDF.removeF "d").1 = .error (.pathErr "Remove" "d" .invalid)
     ∧ (sDF.removeF "/").1 = .error (.msg "cannot Remove() the root directory")
     ∧ (sDF.removeAllF "/").1 = .error (.msg "cannot Remove() the root directory")) :=
  ⟨rfl, rfl, rfl, rfl, rfl, rfl, rfl⟩

/-- The options of disk.New never touch closeCh. -/
lemma diskOptions_closeCh (opts : List DiskOption) :
    ∀ f : DiskProc, (opts.foldl (fun a o => o.apply a) f).closeCh = f.closeCh := by
  induction opts with
  | nil => intro f; rfl
  | cons o rest ih =>
    intro f
    rw [List.foldl_cons, ih]
    cases o <;> rfl

/-- Claim C9 is violated by the code: disk.New never initializes closeCh, so
the channel keeps its nil zero value; Close() then executes close on a nil
channel, a runtime panic, and the loop's receive from the nil channel can
never fire, so no Close can stop the sweep loop. -/
theorem c9_close_panics (location : String) (options : List DiskOption) :
    (diskNew location options).closeCh = none
    ∧ diskClose (diskNew location options) = .error (.panicked "close of nil channel")
    ∧ expireLoopCanStop (diskNew location options) = false := by
  have h : (diskNew location options).closeCh = none := by
    show (diskNew location options).closeCh = none
    unfold diskNew
    rw [show ∀ p : DiskProc, ∀ i, ({ p with index := i } : DiskProc).closeCh = p.closeCh
        from fun p i => rfl]
    rw [diskOptions_closeCh]
  refine ⟨h, ?_, ?_⟩
  · unfold diskClose
    rw [h]
  · unfold expireLoopCanStop
    rw [h]
    rfl



/-- Claim C2 fails as stated for the name ".": writeFile(".", C) succeeds
(the write normalises "." to the empty name and stores a file named ""),
but the immediately following readFile(".") does not return C - Open
special-cases "." to the root directory and ReadFile refuses directories -
on both tiers, so the composed read errors instead of returning C. -/
theorem c2_dot_name_counterexample :
    (writeFileT twoMemSys "." [1] 0).1 = .ok ()
    ∧ tierRead zeroHash (writeFileT twoMemSys "." [1] 0).2 "."
        = .error (.msg "cannot read a directory") :=
  ⟨rfl, rfl⟩



/-- Reduction of the composed read over two memory-filesystem leaves. -/
lemma readFileT_comp_mem (hash : String → Nat) (i j : Nat) (fsc fss : SimpleFS) (N : String) :
    readFileT hash (Tier.comp (.memfs i fsc) (.memfs j fss)) N
    = match SimpleFS.readFile hash fsc N with
      | .ok b => (.ok b, [], [i])
      | .error _ =>
        match SimpleFS.readFile hash fss N with
        | .ok b => (.ok b, [([], N, b)], [i, j])
        | .error e2 => (.error e2, [], [i, j]) := by
  cases hc : SimpleFS.readFile hash fsc N with
  | ok b => simp [readFileT, hc]
  | error e =>
    cases hs : SimpleFS.readFile hash fss N with
    | ok b => simp [readFileT, hc, hs]
    | error e2 => simp [readFileT, hc, hs]

/-- Claim C2 as amended (restricted to names other than "."): in the
two-memory-filesystem composition a successful writeFile(N,C) followed by
readFile(N) returns C together with exactly one pending back-fill of (N,C)
into the cache tier and the access trace cache-then-store; reads are
synchronously pure, so a second readFile(N) is the same value C; and after
the back-fill settles the cache tier itself returns C.  In the three-tier
cascade, readFile("a") returns "hello" with pending fills for T2 and T1;
after they settle, T1 and T2 each return "hello" directly, and a repeated
composed read is served with access trace [1] - T1 only, T3 untouched. -/
theorem c2_eventual_fill :
    (∀ (hash : String → Nat) (N : String) (C : List Nat) (perm : Nat),
      N ≠ "." →
      (writeFileT twoMemSys N C perm).1 = .ok () →
      readFileT hash (writeFileT twoMemSys N C perm).2 N = (.ok C, [([], N, C)], [0, 1])
      ∧ tierRead hash (cacheOf (settle (writeFileT twoMemSys N C perm).2 [([], N, C)])) N
          = .ok C)
    ∧ ((readFileT zeroHash threeTierSys "a").1 = .ok helloBytes
      ∧ (readFileT zeroHash threeTierSys "a").2.1
          = [([true], "a", helloBytes), ([], "a", helloBytes)]
      ∧ tierRead zeroHash
          (cacheOf (settle threeTierSys (readFileT zeroHash threeTierSys "a").2.1)) "a"
          = .ok helloBytes
      ∧ tierRead zeroHash
          (cacheOf (storeOf (settle threeTierSys (readFileT zeroHash threeTierSys "a").2.1)))
          "a" = .ok helloBytes
      ∧ (readFileT zeroHash
          (settle threeTierSys (readFileT zeroHash threeTierSys "a").2.1) "a").2.2 = [1]) := by
  constructor
  · intro hash N C perm hdot h
    have h1 : ((SimpleFS.new []).writeFile N C perm).1 = .ok () := h
    have hw : (SimpleFS.new []).writeFile N C perm
        = (.ok (), ((SimpleFS.new []).writeFile N C perm).2) := by
      conv_lhs => rw [show (SimpleFS.new []).writeFile N C perm
        = (((SimpleFS.new []).writeFile N C perm).1,
           ((SimpleFS.new []).writeFile N C perm).2) from rfl]
      rw [h1]
    have hstoreRead : SimpleFS.readFile hash ((SimpleFS.new []).writeFile N C perm).2 N
        = .ok C := readFile_after_writeFile hw hdot
    obtain ⟨e, hcacheRead⟩ := readFile_new_error hash N
    have hread : readFileT hash (writeFileT twoMemSys N C perm).2 N
        = (.ok C, [([], N, C)], [0, 1]) := by
      have hsys : (writeFileT twoMemSys N C perm).2
          = Tier.comp (.memfs 0 (SimpleFS.new []))
              (.memfs 1 ((SimpleFS.new []).writeFile N C perm).2) := rfl
      rw [hsys, readFileT_comp_mem, hcacheRead, hstoreRead]
    refine ⟨hread, ?_⟩
    have hpir : (SimpleFS.new []).writeFile N C 420 = (SimpleFS.new []).writeFile N C perm := rfl
    have hw420 : (SimpleFS.new []).writeFile N C 420
        = (.ok (), ((SimpleFS.new []).writeFile N C 420).2) := by
      rw [hpir]
      exact hw
    have hcache2 : SimpleFS.readFile hash ((SimpleFS.new []).writeFile N C 420).2 N = .ok C :=
      readFile_after_writeFile hw420 hdot
    have hsys2 : settle (writeFileT twoMemSys N C perm).2 [([], N, C)]
        = Tier.comp (.memfs 0 ((SimpleFS.new []).writeFile N C 420).2)
            (.memfs 1 ((SimpleFS.new []).writeFile N C perm).2) := rfl
    rw [hsys2]
    exact hcache2
  · exact ⟨rfl, rfl, rfl, rfl, rfl⟩

/-- Witness for C2's amended claim at hash = zeroHash, N = "a", C = [1,2]:
the hypotheses hold by computation and the first read returns C with the
single pending cache fill and the cache-then-store trace. -/
theorem c2_eventual_fill_witness :
    readFileT zeroHash (writeFileT twoMemSys "a" [1, 2] 0).2 "a"
      = (.ok [1, 2], [([], "a", [1, 2])], [0, 1]) :=
  (c2_eventual_fill.1 zeroHash "a" [1, 2] 0 (by decide) rfl).1

/-- Claim C5 is violated by the code twice over.  First, New ignores its
options, so a filesystem "constructed with the hashed-lookup option" never
has pearson set - quantified here over every option list.  Second, even
with the flag forced on (as the documented intent), the slot table RO
builds is broken: during the walk s.cache is still the old (nil) table, so
every file is stored at index hash(path) mod 1 = 0 of the new table, while
lookups use hash(path) mod (items+1); with the two files "a" = [0] and
"b" = [1], slot 0 holds the last-walked file "b" and slot 1 stays nil, so
reading "a" after RO() returns the wrong content [1], dereferences a nil
slot (a runtime panic), or reports NotExist - for every hash function, the
hashed round-trip never returns "a"'s pre-freeze content. -/
theorem c5_pearson_lookup_broken (hash : String → Nat) (opts : List SimpleOption) :
    (SimpleFS.new opts).pearson = false
    ∧ SimpleFS.readFile hash
        (SimpleFS.RO hash
          (((SimpleOption.withPearson.apply (SimpleFS.new [])).writeFile "a" [0] 0).2.writeFile
            "b" [1] 0).2) "a" ≠ .ok [0] := by
  refine ⟨rfl, ?_⟩
  intro hcontra
  have hs2 : (((SimpleOption.withPearson.apply (SimpleFS.new [])).writeFile "a" [0] 0).2.writeFile
      "b" [1] 0).2
      = ⟨.mk "." [] true [.mk "a" [0] false [], .mk "b" [1] false []], false, true, [], 2⟩ := rfl
  rw [hs2] at hcontra
  have hRO : SimpleFS.RO hash
      (⟨.mk "." [] true [.mk "a" [0] false [], .mk "b" [1] false []], false, true, [], 2⟩ : SimpleFS)
      = ⟨.mk "." [] true [.mk "a" [0] false [], .mk "b" [1] false []], true, true,
         [some (.mk "b" [1] false []), none], 2⟩ := by
    unfold SimpleFS.RO
    simp [walkFiles, walkFilesList, joinPath, Nat.mod_one]
  rw [hRO] at hcontra
  unfold SimpleFS.readFile SimpleFS.openF at hcontra
  simp only [show normName "a" = "a" from rfl] at hcontra
  simp only [show ("a" = "/" ∨ "a" = "" ∨ "a" = ".") = False from by simp,
    if_false, List.length_cons, List.length_nil, Nat.reduceAdd, Bool.and_self,
    if_true, reduceIte] at hcontra
  split at hcontra
  next e heq => exact absurd hcontra (by simp)
  next f heq =>
    split at heq
    next hlt =>
      have h01 : hash "a" % 3 = 0 ∨ hash "a" % 3 = 1 := by omega
      rcases h01 with h0 | h0
      · simp only [h0] at heq
        simp at heq
        rw [← heq] at hcontra
        simp at hcontra
      · simp only [h0] at heq
        simp at heq
    next hge =>
      exact absurd heq (by simp)

/-- Claim C7 fails as stated on two counts, both evaluated here.  (1) After
touching "a" (TTL 10, time 0) a sweep's expireItem empties the ordered
structure but leaves "a" in the byName companion map, so the map does not
contain exactly the names present in the ordered structure.  (2) The GoLLRB
ordering compares only times, so when "a" and "b" are touched at the same
instant and "b" is then touched again, the Delete aimed at "b"'s old entry
removes the order-equal entry of "a" instead, leaving two live ordered
entries named "b" (and none named "a", though byName still lists "a"). -/
theorem c7_counterexample :
    ((deleteOld (addOrUpdate (newIndex 10) 0 "a") 1).1.expires = []
      ∧ (deleteOld (addOrUpdate (newIndex 10) 0 "a") 1).1.byName = [("a", ⟨10, "a"⟩)])
    ∧ ((addOrUpdate (addOrUpdate (addOrUpdate (newIndex 10) 0 "a") 0 "b") 5 "b").expires
        = [⟨15, "b"⟩, ⟨10, "b"⟩]
      ∧ ((addOrUpdate (addOrUpdate (addOrUpdate (newIndex 10) 0 "a") 0 "b") 5 "b").expires.filter
          (fun k => k.name == "b")).length = 2
      ∧ (addOrUpdate (addOrUpdate (addOrUpdate (newIndex 10) 0 "a") 0 "b") 5 "b").byName.lookup
          "a" = some ⟨10, "a"⟩) :=
  ⟨⟨rfl, rfl⟩, rfl, rfl, rfl⟩



lemma llrbInsert_perm (l : List ExpireKey) (k : ExpireKey) :
    (llrbInsert l k).Perm (k :: l) := by
  induction l with
  | nil => simp [llrbInsert]
  | cons x xs ih =>
    unfold llrbInsert
    split
    · exact List.Perm.refl _
    · exact (ih.cons x).trans (List.Perm.swap k x xs)

lemma llrbInsert_length (l : List ExpireKey) (k : ExpireKey) :
    (llrbInsert l k).length = l.length + 1 := by
  simpa using (llrbInsert_perm l k).length_eq

lemma lookup_some_mem {m : List (String × ExpireKey)} {nm : String} {k : ExpireKey}
    (h : m.lookup nm = some k) : (nm, k) ∈ m := by
  induction m with
  | nil => simp [List.lookup] at h
  | cons p es ih =>
    obtain ⟨a, b⟩ := p
    rw [List.lookup] at h
    by_cases hb : (nm == a) = true
    · rw [hb] at h
      have h2 : some b = some k := h
      obtain rfl : b = k := by injection h2
      obtain rfl : nm = a := by simpa using hb
      exact List.mem_cons_self _ _
    · rw [Bool.not_eq_true] at hb
      rw [hb] at h
      have h2 : es.lookup nm = some k := h
      exact List.mem_cons_of_mem _ (ih h2)

lemma lookup_none_names {m : List (String × ExpireKey)} {nm : String}
    (h : m.lookup nm = none) : ∀ p ∈ m, p.1 ≠ nm := by
  induction m with
  | nil => simp
  | cons p es ih =>
    obtain ⟨a, b⟩ := p
    rw [List.lookup] at h
    by_cases hb : (nm == a) = true
    · rw [hb] at h
      exact absurd h (by simp)
    · rw [Bool.not_eq_true] at hb
      rw [hb] at h
      have h2 : es.lookup nm = none := h
      intro q hq
      rcases List.mem_cons.mp hq with hq | hq
      · subst hq
        intro he
        have he2 : a = nm := he
        rw [he2] at hb
        simp at hb
      · exact ih h2 q hq

lemma lookup_append_single (m : List (String × ExpireKey)) (nm : String) (k : ExpireKey)
    (h : m.lookup nm = none) : (m ++ [(nm, k)]).lookup nm = some k := by
  induction m with
  | nil =>
    rw [List.nil_append, List.lookup, show (nm == nm) = true from by simp]
  | cons p es ih =>
    obtain ⟨a, b⟩ := p
    rw [List.lookup] at h
    rw [List.cons_append, List.lookup]
    by_cases hb : (nm == a) = true
    · rw [hb] at h
      exact absurd h (by simp)
    · rw [Bool.not_eq_true] at hb
      rw [hb] at h ⊢
      exact ih h

lemma lookup_map_replace (m : List (String × ExpireKey)) (nm : String) (k : ExpireKey)
    (h : (m.lookup nm).isSome = true) :
    (m.map (fun p => if p.1 == nm then (nm, k) else p)).lookup nm = some k := by
  induction m with
  | nil => simp [List.lookup] at h
  | cons p es ih =>
    obtain ⟨a, b⟩ := p
    rw [List.lookup] at h
    rw [List.map_cons]
    by_cases hb : (a == nm) = true
    · rw [if_pos hb]
      rw [List.lookup, show (nm == nm) = true from by simp]
    · rw [if_neg (by simp [hb])]
      have hne : (nm == a) = false := by
        have : ¬a = nm := by simpa using hb
        simp [Ne, this]
        intro hx
        exact this hx.symm
      rw [hne] at h
      rw [List.lookup, hne]
      exact ih h

lemma assocSet_lookup (m : List (String × ExpireKey)) (nm : String) (k : ExpireKey) :
    (assocSet m nm k).lookup nm = some k := by
  unfold assocSet
  split
  next hsome => exact lookup_map_replace m nm k hsome
  next hnone =>
    apply lookup_append_single
    cases hlk : List.lookup nm m with
    | none => rfl
    | some v => exact absurd (by rw [hlk]; rfl) hnone

lemma keyEq_self (k : ExpireKey) : keyEq k k = true := by
  simp [keyEq, keyLess]

lemma keyEq_iff_time (a b : ExpireKey) : keyEq a b = true ↔ a.time = b.time := by
  simp [keyEq, keyLess]
  omega

/-- On entry lists with pairwise distinct times, the GoLLRB Delete (erase
the first order-equal element) removes exactly the requested member. -/
lemma eraseP_keyEq_eq_erase (l : List ExpireKey) (k : ExpireKey)
    (hnd : (l.map (fun x => x.time)).Nodup) (hk : k ∈ l) :
    l.eraseP (fun x => keyEq x k) = l.erase k := by
  induction l with
  | nil => rfl
  | cons x xs ih =>
    rw [List.map_cons, List.nodup_cons] at hnd
    rcases List.mem_cons.mp hk with rfl | hk'
    · rw [show List.eraseP (fun x => keyEq x k) (k :: xs) = xs from by
        simp [List.eraseP_cons, keyEq_self], List.erase_cons_head]
    · have hxk : x.time ≠ k.time := by
        intro he
        exact hnd.1 (he ▸ List.mem_map_of_mem _ hk')
      have hne : x ≠ k := by
        intro he
        exact hxk (by rw [he])
      rw [List.eraseP_cons_of_neg (by
          intro hc
          exact hxk ((keyEq_iff_time x k).mp hc)),
        List.erase_cons_tail (by simpa using hne)]
      rw [ih hnd.2 hk']

lemma map_replace_id (m : List (String × ExpireKey)) (nm : String) (k : ExpireKey)
    (h : ∀ p ∈ m, p.1 ≠ nm) :
    m.map (fun p => if p.1 == nm then (nm, k) else p) = m := by
  induction m with
  | nil => rfl
  | cons p es ih =>
    rw [List.map_cons, if_neg (by simpa using h p (List.mem_cons_self _ _)),
      ih (fun q hq => h q (List.mem_cons_of_mem _ hq))]

/-- The byName update of addOrUpdate's refresh branch, at the level of the
stored key multiset: the old key is dropped and the refreshed key added. -/
lemma assocSet_values_replace (m : List (String × ExpireKey)) (nm : String) (k k' : ExpireKey)
    (hl : m.lookup nm = some k)
    (hnd : (m.map (fun p => p.1)).Nodup)
    (hnames : ∀ p ∈ m, p.2.name = p.1) :
    ((m.map (fun p => if p.1 == nm then (nm, k') else p)).map (fun p => p.2)).Perm
      (k' :: (m.map (fun p => p.2)).erase k) := by
  induction m with
  | nil => simp [List.lookup] at hl
  | cons p es ih =>
    obtain ⟨a, b⟩ := p
    rw [List.lookup] at hl
    rw [List.map_cons, List.nodup_cons] at hnd
    by_cases hb : (nm == a) = true
    · obtain rfl : nm = a := by simpa using hb
      rw [hb] at hl
      have hl2 : some b = some k := hl
      obtain rfl : b = k := by injection hl2
      have hes : es.map (fun p => if p.1 == nm then (nm, k') else p) = es :=
        map_replace_id es nm k' (by
          intro q hq he
          apply hnd.1
          rw [← he]
          exact List.mem_map.mpr ⟨q, hq, rfl⟩)
      rw [List.map_cons, if_pos (by simp), hes, List.map_cons, List.map_cons,
        List.erase_cons_head]
    · have hnm : ¬nm = a := by simpa using hb
      rw [Bool.not_eq_true] at hb
      rw [hb] at hl
      have hl2 : es.lookup nm = some k := hl
      have hkname : k.name = nm := by
        have hmem := lookup_some_mem hl2
        have := hnames (nm, k) (List.mem_cons_of_mem _ hmem)
        simpa using this
      have hbname : b.name = a := by
        have := hnames (a, b) (List.mem_cons_self _ _)
        simpa using this
      have hbk : b ≠ k := by
        intro he
        apply hnm
        rw [← hkname, ← he, hbname]
      rw [List.map_cons, if_neg (by
          intro hc
          have hca : a = nm := by simpa using hc
          exact hnm hca.symm)]
      rw [List.map_cons, List.map_cons, List.erase_cons_tail (by simpa using hbk)]
      have ihp := ih hl2 hnd.2 (fun q hq => hnames q (List.mem_cons_of_mem _ hq))
      exact (ihp.cons b).trans (List.Perm.swap k' b _)

lemma map_fst_replace (m : List (String × ExpireKey)) (nm : String) (k : ExpireKey) :
    (m.map (fun p => if p.1 == nm then (nm, k) else p)).map (fun p => p.1)
      = m.map (fun p => p.1) := by
  induction m with
  | nil => rfl
  | cons p es ih =>
    obtain ⟨a, b⟩ := p
    rw [List.map_cons, List.map_cons, List.map_cons]
    by_cases hb : (a == nm) = true
    · rw [if_pos hb, ih]
      have : a = nm := by simpa using hb
      rw [this]
    · rw [if_neg (by simpa using hb), ih]

/-- addOrUpdate preserves the index invariant when the refreshed time is
strictly later than every time already in the ordered structure, keeps the
TTL, and bounds all resulting times by the refreshed time. -/
lemma addOrUpdate_inv (st : IndexState) (now : Int) (nm : String)
    (hInv : InvIdx st)
    (hfresh : ∀ k ∈ st.expires, k.time < now + st.olderThan) :
    InvIdx (addOrUpdate st now nm)
    ∧ (addOrUpdate st now nm).olderThan = st.olderThan
    ∧ (∀ k ∈ (addOrUpdate st now nm).expires, k.time ≤ now + st.olderThan) := by
  obtain ⟨hperm, hndn, hndt, hnames⟩ := hInv
  unfold addOrUpdate
  cases hl : st.byName.lookup nm with
  | none =>
    have hset : assocSet st.byName nm ⟨now + st.olderThan, nm⟩
        = st.byName ++ [(nm, ⟨now + st.olderThan, nm⟩)] := by
      unfold assocSet
      rw [if_neg (by rw [hl]; simp)]
    have hnotin : nm ∉ st.byName.map (fun p => p.1) := by
      intro hmem
      obtain ⟨p, hp, hfst⟩ := List.mem_map.mp hmem
      exact lookup_none_names hl p hp hfst
    refine ⟨⟨?_, ?_, ?_, ?_⟩, rfl, ?_⟩
    · show (llrbInsert st.expires ⟨now + st.olderThan, nm⟩).Perm
        ((assocSet st.byName nm ⟨now + st.olderThan, nm⟩).map (fun p => p.2))
      rw [hset, List.map_append]
      exact (llrbInsert_perm _ _).trans ((hperm.cons _).trans
        (List.perm_append_singleton _ _).symm)
    · show ((assocSet st.byName nm ⟨now + st.olderThan, nm⟩).map (fun p => p.1)).Nodup
      rw [hset, List.map_append]
      simp only [List.map_cons, List.map_nil]
      rw [List.nodup_append]
      exact ⟨hndn, List.nodup_singleton _, by simpa using hnotin⟩
    · show ((llrbInsert st.expires ⟨now + st.olderThan, nm⟩).map (fun k => k.time)).Nodup
      rw [(((llrbInsert_perm st.expires _).map (fun k => k.time)).nodup_iff)]
      rw [List.map_cons, List.nodup_cons]
      refine ⟨?_, hndt⟩
      intro hmem
      obtain ⟨x, hx, ht⟩ := List.mem_map.mp hmem
      exact absurd ht (ne_of_lt (hfresh x hx))
    · show ∀ p ∈ assocSet st.byName nm ⟨now + st.olderThan, nm⟩, p.2.name = p.1
      rw [hset]
      intro p hp
      rcases List.mem_append.mp hp with hp | hp
      · exact hnames p hp
      · rcases List.mem_singleton.mp hp with rfl
        rfl
    · show ∀ k ∈ llrbInsert st.expires ⟨now + st.olderThan, nm⟩,
        k.time ≤ now + st.olderThan
      intro k hk
      rcases List.mem_cons.mp ((llrbInsert_perm _ _).mem_iff.mp hk) with rfl | hk'
      · exact le_refl _
      · exact le_of_lt (hfresh k hk')
  | some k0 =>
    have hmem_pair := lookup_some_mem hl
    have hk0e : k0 ∈ st.expires := by
      apply hperm.mem_iff.mpr
      exact List.mem_map.mpr ⟨(nm, k0), hmem_pair, rfl⟩
    have hdel : llrbDelete st.expires k0 = st.expires.erase k0 := by
      unfold llrbDelete
      exact eraseP_keyEq_eq_erase _ _ hndt hk0e
    have hset : assocSet st.byName nm ⟨now + st.olderThan, nm⟩
        = st.byName.map
            (fun p => if p.1 == nm then (nm, ⟨now + st.olderThan, nm⟩) else p) := by
      unfold assocSet
      rw [if_pos (by rw [hl]; rfl)]
    have herase_sub : ∀ x ∈ st.expires.erase k0, x ∈ st.expires :=
      fun x hx => (List.erase_sublist k0 st.expires).subset hx
    refine ⟨⟨?_, ?_, ?_, ?_⟩, rfl, ?_⟩
    · show (llrbInsert (llrbDelete st.expires k0) ⟨now + st.olderThan, nm⟩).Perm
        ((assocSet st.byName nm ⟨now + st.olderThan, nm⟩).map (fun p => p.2))
      rw [hdel, hset]
      refine ((llrbInsert_perm _ _).trans ?_).trans
        (assocSet_values_replace st.byName nm k0 _ hl hndn hnames).symm
      exact (hperm.erase k0).cons _
    · show ((assocSet st.byName nm ⟨now + st.olderThan, nm⟩).map (fun p => p.1)).Nodup
      rw [hset, map_fst_replace]
      exact hndn
    · show ((llrbInsert (llrbDelete st.expires k0) ⟨now + st.olderThan, nm⟩).map
        (fun k => k.time)).Nodup
      rw [hdel]
      rw [(((llrbInsert_perm _ _).map (fun k => k.time)).nodup_iff)]
      rw [List.map_cons, List.nodup_cons]
      constructor
      · intro hmem
        obtain ⟨x, hx, ht⟩ := List.mem_map.mp hmem
        exact absurd ht (ne_of_lt (hfresh x (herase_sub x hx)))
      · exact List.Nodup.sublist ((List.erase_sublist k0 st.expires).map _) hndt
    · show ∀ p ∈ assocSet st.byName nm ⟨now + st.olderThan, nm⟩, p.2.name = p.1
      rw [hset]
      intro p hp
      obtain ⟨q, hq, hfq⟩ := List.mem_map.mp hp
      by_cases hb : (q.1 == nm) = true
      · rw [if_pos hb] at hfq
        rw [← hfq]
      · rw [if_neg (by simpa using hb)] at hfq
        rw [← hfq]
        exact hnames q hq
    · show ∀ k ∈ llrbInsert (llrbDelete st.expires k0) ⟨now + st.olderThan, nm⟩,
        k.time ≤ now + st.olderThan
      rw [hdel]
      intro k hk
      rcases List.mem_cons.mp ((llrbInsert_perm _ _).mem_iff.mp hk) with rfl | hk'
      · exact le_refl _
      · exact le_of_lt (hfresh k (herase_sub k hk'))

/-- Touching a name that is already indexed leaves the ordered structure's
size unchanged: Delete removes exactly one order-equal entry and the
refreshed key is inserted. -/
lemma addOrUpdate_size (st : IndexState) (now : Int) (nm : String) (k : ExpireKey)
    (hInv : InvIdx st) (hl : st.byName.lookup nm = some k) :
    (addOrUpdate st now nm).expires.length = st.expires.length := by
  obtain ⟨hperm, hndn, hndt, hnames⟩ := hInv
  have hmem_pair := lookup_some_mem hl
  have hke : k ∈ st.expires :=
    hperm.mem_iff.mpr (List.mem_map.mpr ⟨(nm, k), hmem_pair, rfl⟩)
  unfold addOrUpdate
  rw [hl]
  show (llrbInsert (llrbDelete st.expires k) ⟨now + st.olderThan, nm⟩).length
      = st.expires.length
  rw [llrbInsert_length]
  unfold llrbDelete
  rw [eraseP_keyEq_eq_erase _ _ hndt hke, List.length_erase_of_mem hke]
  have hpos : 0 < st.expires.length := List.length_pos.mpr (List.ne_nil_of_mem hke)
  omega

/-- The invariant holds along every strictly time-increasing addOrUpdate
sequence. -/
lemma runAdds_from_inv (ttl : Int) :
    ∀ (ops : List (String × Int)) (st : IndexState),
      st.olderThan = ttl →
      InvIdx st →
      List.Pairwise (fun a b : String × Int => a.2 < b.2) ops →
      (∀ k ∈ st.expires, ∀ op ∈ ops, k.time < op.2 + ttl) →
      InvIdx (ops.foldl (fun acc op => addOrUpdate acc op.2 op.1) st) := by
  intro ops
  induction ops with
  | nil =>
    intro st _ hInv _ _
    simpa using hInv
  | cons op rest ih =>
    intro st httl hInv hpw hfr
    rw [List.foldl_cons]
    rw [List.pairwise_cons] at hpw
    have hfresh0 : ∀ k ∈ st.expires, k.time < op.2 + st.olderThan := by
      intro k hk
      rw [httl]
      exact hfr k hk op (List.mem_cons_self _ _)
    obtain ⟨hInv', holder, hbound⟩ := addOrUpdate_inv st op.2 op.1 hInv hfresh0
    apply ih _ (by rw [holder, httl]) hInv' hpw.2
    intro k hk op' hop'
    have h1 : k.time ≤ op.2 + st.olderThan := hbound k hk
    have h2 : op.2 < op'.2 := hpw.1 op' hop'
    rw [httl] at h1
    omega

/-- The invariant gives at most one live ordered entry per name. -/
lemma InvIdx_count_le_one (st : IndexState) (h : InvIdx st) (nm : String) :
    (st.expires.filter (fun k => k.name == nm)).length ≤ 1 := by
  obtain ⟨hperm, hndn, -, hnames⟩ := h
  rw [← List.countP_eq_length_filter]
  rw [hperm.countP_eq]
  rw [List.countP_map]
  have hcongr : List.countP ((fun k => k.name == nm) ∘ (fun p : String × ExpireKey => p.2))
      st.byName = List.countP (fun p : String × ExpireKey => p.1 == nm) st.byName := by
    apply List.countP_congr
    intro p hp
    simp only [Function.comp]
    rw [hnames p hp]
  rw [hcongr]
  have h2 : List.countP (fun p : String × ExpireKey => p.1 == nm) st.byName
      = List.countP (fun a => a == nm) (st.byName.map (fun p => p.1)) := by
    rw [List.countP_map]
    rfl
  rw [h2, ← List.count_eq_countP]
  exact List.nodup_iff_count_le_one.mp hndn nm

/-- The invariant makes the companion map's names exactly the names in the
ordered structure (as multisets). -/
lemma InvIdx_names_perm (st : IndexState) (h : InvIdx st) :
    (st.expires.map (fun k => k.name)).Perm (st.byName.map (fun p => p.1)) := by
  obtain ⟨hperm, -, -, hnames⟩ := h
  refine (hperm.map _).trans ?_
  rw [List.map_map]
  have heq : (st.byName.map ((fun k => k.name) ∘ (fun p : String × ExpireKey => p.2)))
      = st.byName.map (fun p => p.1) := by
    apply List.map_congr_left
    intro p hp
    simp only [Function.comp]
    exact hnames p hp
  rw [heq]

/-- Claim C7 as amended.  For every sequence of addOrUpdate touches at
strictly increasing times starting from a fresh index: the invariant holds,
at most one live ordered entry exists per name, and the companion map's
names are exactly the ordered structure's names; touching an
already-present name leaves the ordered structure's size unchanged; the
refreshed entry's expiry is now + TTL.  A sweep's expireItem, however,
never touches the companion map (so after a sweep the map can list names
the ordered structure no longer holds - forced by the counterexample), and
same-instant touches can delete the wrong same-expiry entry (the second
counterexample), which is why the sequence hypothesis orders the times
strictly. -/
theorem c7_touch_invariants (ttl : Int) :
    (∀ ops : List (String × Int),
      List.Pairwise (fun a b => a.2 < b.2) ops →
      InvIdx (runAdds ttl ops)
      ∧ (∀ nm, ((runAdds ttl ops).expires.filter (fun k => k.name == nm)).length ≤ 1)
      ∧ ((runAdds ttl ops).expires.map (fun k => k.name)).Perm
          ((runAdds ttl ops).byName.map (fun p => p.1)))
    ∧ (∀ (st : IndexState) (now : Int) (nm : String) (k : ExpireKey),
        InvIdx st → st.byName.lookup nm = some k →
        (addOrUpdate st now nm).expires.length = st.expires.length)
    ∧ (∀ (st : IndexState) (now : Int) (nm : String),
        (addOrUpdate st now nm).byName.lookup nm = some ⟨now + st.olderThan, nm⟩)
    ∧ (∀ (st : IndexState) (now : Int), (deleteOld st now).1.byName = st.byName) := by
  refine ⟨?_, addOrUpdate_size, ?_, fun st now => rfl⟩
  · intro ops hpw
    have hInv0 : InvIdx (newIndex ttl) := by
      refine ⟨?_, ?_, ?_, ?_⟩ <;> simp [newIndex]
    have hInv := runAdds_from_inv ttl ops (newIndex ttl) rfl hInv0 hpw
      (by simp [newIndex])
    exact ⟨hInv, fun nm => InvIdx_count_le_one _ hInv nm, InvIdx_names_perm _ hInv⟩
  · intro st now nm
    unfold addOrUpdate
    cases hl : st.byName.lookup nm with
    | none =>
      show (assocSet st.byName nm ⟨now + st.olderThan, nm⟩).lookup nm = _
      exact assocSet_lookup _ _ _
    | some k0 =>
      show (assocSet st.byName nm ⟨now + st.olderThan, nm⟩).lookup nm = _
      exact assocSet_lookup _ _ _

/-- Witness for C7's amended claim at TTL 10: the invariant after three
increasing touches, size preservation when re-touching "a", and the
refreshed expiry 5 + 10. -/
theorem c7_touch_invariants_witness :
    InvIdx (runAdds 10 [("a", 0), ("b", 1), ("a", 2)])
    ∧ (addOrUpdate (runAdds 10 [("a", 0)]) 5 "a").expires.length
        = (runAdds 10 [("a", 0)]).expires.length
    ∧ (addOrUpdate (runAdds 10 [("a", 0)]) 5 "a").byName.lookup "a"
        = some ⟨15, "a"⟩ :=
  ⟨((c7_touch_invariants 10).1 [("a", 0), ("b", 1), ("a", 2)] (by decide)).1,
   (c7_touch_invariants 10).2.1 (runAdds 10 [("a", 0)]) 5 "a" ⟨10, "a"⟩
     (((c7_touch_invariants 10).1 [("a", 0)] (by decide)).1) rfl,
   (c7_touch_invariants 10).2.2.1 (runAdds 10 [("a", 0)]) 5 "a"⟩
